import Mathlib

/-!
Verification of the MiC Dynamic Scheduler core (src/config/base.py,
src/utils/helpers.py, src/core/model.py) against its specification.

Timestamps: Python `datetime.datetime` values are embedded as `DT`, a pair of
the number of whole hours since the proleptic-Gregorian epoch 0001-01-01 00:00
(which falls on a Monday, so `weekday = hrs / 24 % 7` matches Python's
`weekday()` with Monday = 0) together with the sub-hour payload (the
minute/second/microsecond part, measured in microseconds within the hour).
`dt + timedelta(hours=1)` is `hrs + 1`, `replace(minute=0, second=0,
microsecond=0)` zeroes `sub`, and comparison is lexicographic.

Python `while` loops are embedded with an explicit fuel argument chosen from
the loop bound visible in the source; lemmas establish that the fuel never
runs out on the stated inputs, so the embedding agrees with the unbounded
loop of the source.
-/

/-- Hours since 0001-01-01 00:00 plus sub-hour payload (µs within the hour). -/
structure DT where
  hrs : Nat
  sub : Nat
deriving DecidableEq, Repr

/-- Lexicographic strict order on timestamps (Python datetime `<`). -/
def DT.lt (a b : DT) : Prop := a.hrs < b.hrs ∨ (a.hrs = b.hrs ∧ a.sub < b.sub)

/-- Lexicographic order on timestamps (Python datetime `<=`). -/
def DT.le (a b : DT) : Prop := a.hrs < b.hrs ∨ (a.hrs = b.hrs ∧ a.sub ≤ b.sub)

instance (a b : DT) : Decidable (DT.lt a b) := by unfold DT.lt; exact inferInstance

instance (a b : DT) : Decidable (DT.le a b) := by unfold DT.le; exact inferInstance

namespace Config

/-- Config.WORK_HOURS from src/config/base.py. -/
def WORK_HOURS : List (Nat × Nat) := [(8, 12), (13, 17)]

/-- Config.HK_WEATHER_RISK from src/config/base.py: month ↦ (probability, severity).
The Python dict lookup `HK_WEATHER_RISK.get(month, (0, 0))` is embedded as a
total function with the default for absent keys. -/
def HK_WEATHER_RISK (m : Nat) : ℚ × ℚ :=
  if m = 1 then (1/100, 0) else if m = 2 then (1/100, 0)
  else if m = 3 then (2/100, 1/2) else if m = 4 then (5/100, 1)
  else if m = 5 then (15/100, 2) else if m = 6 then (30/100, 3)
  else if m = 7 then (50/100, 4) else if m = 8 then (60/100, 5)
  else if m = 9 then (40/100, 3) else if m = 10 then (20/100, 2)
  else if m = 11 then (5/100, 1) else if m = 12 then (1/100, 0)
  else (0, 0)

end Config

/-- Gregorian month (1..12) of a 0-based day number counted from 0001-01-01,
via the standard civil-from-days computation on the 400-year cycle. -/
def civilMonth (day : Nat) : Nat :=
  let z := day + 306
  let doe := z % 146097
  let yoe := (doe - doe / 1460 + doe / 36524 - doe / 146096) / 365
  let doy := doe - (365 * yoe + yoe / 4 - yoe / 100)
  let mp := (5 * doy + 2) / 153
  if mp < 10 then mp + 3 else mp - 9

/-- Python `dt.month` for an embedded timestamp. -/
def DT.month (d : DT) : Nat := civilMonth (d.hrs / 24)

/-- is_working_hour from src/utils/helpers.py: False on Sunday
(`weekday() == 6`), else true iff the hour of day lies in some work window. -/
def is_working_hour (d : DT) : Bool :=
  if (d.hrs / 24) % 7 == 6 then false
  else Config.WORK_HOURS.any (fun se => decide (se.1 ≤ d.hrs % 24) && decide (d.hrs % 24 < se.2))

/-- is_working_hour as a function of the hour index alone (the source reads
only the weekday and the hour of day, never the sub-hour part). -/
def isWorkN (t : Nat) : Bool := is_working_hour (DT.mk t 0)

theorem is_working_hour_eq_isWorkN (d : DT) : is_working_hour d = isWorkN d.hrs := rfl

/-- get_risk_factor from src/utils/helpers.py. -/
def get_risk_factor (d : DT) : ℚ × ℚ := Config.HK_WEATHER_RISK d.month

/-- Bounded search for the next hour index satisfying is_working_hour; the
fuel 168 (one week of hours) always suffices (`isWorkN_nextWork`). -/
def nextWorkAux : Nat → Nat → Nat
  | 0, t => t
  | fuel + 1, t => if isWorkN t then t else nextWorkAux fuel (t + 1)

/-- The least working hour index at or after `t` (the `while not
is_working_hour(current_dt)` loop of add_work_hours). -/
def nextWork (t : Nat) : Nat := nextWorkAux 168 t

theorem isWorkN_of_mod (t : Nat) (h : t % 168 = 8) : isWorkN t = true := by
  have h24 : t % 24 = 8 := by omega
  have h7 : t / 24 % 7 = 0 := by omega
  simp [isWorkN, is_working_hour, Config.WORK_HOURS, h24, h7]

theorem exists_work_in_week (t : Nat) : ∃ k, k < 168 ∧ isWorkN (t + k) = true := by
  refine ⟨(8 + 168 - t % 168) % 168, by omega, isWorkN_of_mod _ (by omega)⟩

theorem nextWorkAux_ge (fuel t : Nat) : t ≤ nextWorkAux fuel t := by
  induction fuel generalizing t with
  | zero => simp [nextWorkAux]
  | succ n ih =>
      simp only [nextWorkAux]
      split
      · exact Nat.le_refl t
      · exact Nat.le_trans (Nat.le_succ t) (ih (t + 1))

theorem nextWorkAux_isWork (fuel t : Nat)
    (h : ∃ k, k < fuel ∧ isWorkN (t + k) = true) :
    isWorkN (nextWorkAux fuel t) = true := by
  induction fuel generalizing t with
  | zero => omega
  | succ n ih =>
      obtain ⟨k, hk, hw⟩ := h
      simp only [nextWorkAux]
      split
      · assumption
      · rename_i hnot
        apply ih
        rcases k with _ | k
        · rw [Nat.add_zero] at hw
          exact absurd hw hnot
        · refine ⟨k, by omega, ?_⟩
          have h2 : t + 1 + k = t + (k + 1) := by omega
          rw [h2]
          exact hw

theorem isWorkN_nextWork (t : Nat) : isWorkN (nextWork t) = true :=
  nextWorkAux_isWork 168 t (exists_work_in_week t)

theorem nextWork_ge (t : Nat) : t ≤ nextWork t := nextWorkAux_ge 168 t

theorem nextWork_of_isWork (t : Nat) (h : isWorkN t = true) : nextWork t = t := by
  simp [nextWork, nextWorkAux, h]

/-- One iteration of the counting loop of add_work_hours: the least working
hour index strictly after `t` (advance one hour, then keep advancing while
not on a working hour). -/
def workStep (t : Nat) : Nat := nextWork (t + 1)

/-- `n` iterations of the counting loop of add_work_hours. -/
def workIter : Nat → Nat → Nat
  | 0, t => t
  | n + 1, t => workIter n (workStep t)

theorem workStep_gt (t : Nat) : t < workStep t :=
  Nat.lt_of_lt_of_le (Nat.lt_succ_self t) (nextWork_ge (t + 1))

theorem workIter_ge (n t : Nat) : t ≤ workIter n t := by
  induction n generalizing t with
  | zero => simp [workIter]
  | succ m ih => exact Nat.le_trans (Nat.le_of_lt (workStep_gt t)) (ih (workStep t))

theorem workIter_succ (n t : Nat) : workIter (n + 1) t = workIter n (workStep t) := rfl

theorem workIter_shift (n t : Nat) : workIter (n + 1) t = workStep (workIter n t) := by
  induction n generalizing t with
  | zero => simp [workIter]
  | succ m ih =>
      rw [workIter_succ, ih, workIter_succ]

theorem workIter_add (m n t : Nat) : workIter (m + n) t = workIter n (workIter m t) := by
  induction n with
  | zero => simp [workIter]
  | succ k ih =>
      have h : m + (k + 1) = (m + k) + 1 := by omega
      rw [h, workIter_shift, ih, ← workIter_shift]

theorem workIter_strict_mono (n t : Nat) (h : 1 ≤ n) : t < workIter n t := by
  rcases n with _ | m
  · omega
  · calc t < workStep t := workStep_gt t
      _ ≤ workIter m (workStep t) := workIter_ge m _
      _ = workIter (m + 1) t := (workIter_succ m t).symm

/-- add_work_hours from src/utils/helpers.py: for non-positive `hoursNeeded`
return `start` unchanged; otherwise zero out the sub-hour part, advance to the
first working hour, then repeat `hoursNeeded` times: step one hour forward and
keep stepping until the landed-on hour is a working hour. -/
def add_work_hours (start : DT) (hoursNeeded : Int) : DT :=
  if hoursNeeded ≤ 0 then start
  else DT.mk (workIter hoursNeeded.toNat (nextWork start.hrs)) 0

/-- Described from the spec (§4.1): snap the start (minute/second zeroed) to
the next working hour `s0`, count `hoursNeeded` working hour-slots beginning
with the slot of `s0`, and return the timestamp immediately following the
last counted slot. -/
def addWorkHoursDescribed (start : DT) (hoursNeeded : Int) : DT :=
  if hoursNeeded ≤ 0 then start
  else DT.mk (workIter (hoursNeeded.toNat - 1) (nextWork start.hrs) + 1) 0

/-- C3 counterexample: starting Monday 08:00 with 4 working hours and work
windows [(8,12),(13,17)], the code returns Monday 13:00, while the described
"timestamp immediately following the last of the 4 counted working hours"
(08,09,10,11) is Monday 12:00. -/
theorem add_work_hours_counterexample :
    add_work_hours (DT.mk 8 0) 4 = DT.mk 13 0 ∧
    addWorkHoursDescribed (DT.mk 8 0) 4 = DT.mk 12 0 ∧
    DT.mk 13 0 ≠ DT.mk 12 0 := by
  refine ⟨by decide, by decide, by decide⟩

/-- C3 amended: non-positive `hoursNeeded` is a no-op returning `start`
unchanged; otherwise the code returns not the instant immediately following
the last counted working hour, but the next working hour at or after it
(an extra skip over any non-working gap). -/
theorem add_work_hours_amended (start : DT) (hoursNeeded : Int) :
    (hoursNeeded ≤ 0 → add_work_hours start hoursNeeded = start) ∧
    (1 ≤ hoursNeeded →
      add_work_hours start hoursNeeded =
        DT.mk (nextWork (addWorkHoursDescribed start hoursNeeded).hrs) 0) := by
  constructor
  · intro h
    simp [add_work_hours, h]
  · intro h
    have hnot : ¬ hoursNeeded ≤ 0 := by omega
    have hn : 1 ≤ hoursNeeded.toNat := by omega
    simp only [add_work_hours, addWorkHoursDescribed, if_neg hnot]
    have hsplit : hoursNeeded.toNat = (hoursNeeded.toNat - 1) + 1 := by omega
    rw [hsplit, workIter_shift]
    rfl

theorem add_work_hours_amended_witness :
    (1 ≤ (4 : Int)) ∧
    add_work_hours (DT.mk 8 0) 4 =
      DT.mk (nextWork (addWorkHoursDescribed (DT.mk 8 0) 4).hrs) 0 :=
  ⟨by decide, (add_work_hours_amended (DT.mk 8 0) 4).2 (by decide)⟩

/-- C5: add_work_hours is monotone non-decreasing in the hours argument. -/
theorem add_work_hours_monotone (start : DT) (h1 h2 : Int) (h : h1 < h2) :
    DT.le (add_work_hours start h1) (add_work_hours start h2) := by
  by_cases hb2 : h2 ≤ 0
  · have hb1 : h1 ≤ 0 := by omega
    simp [add_work_hours, hb1, hb2, DT.le]
  · have h2pos : 1 ≤ h2.toNat := by omega
    by_cases hb1 : h1 ≤ 0
    · simp only [add_work_hours, if_pos hb1, if_neg hb2]
      left
      calc start.hrs ≤ nextWork start.hrs := nextWork_ge _
        _ < workIter h2.toNat (nextWork start.hrs) := workIter_strict_mono _ _ h2pos
    · have h1pos : ¬ h1 ≤ 0 := hb1
      simp only [add_work_hours, if_neg h1pos, if_neg hb2]
      have hsplit : h2.toNat = h1.toNat + (h2.toNat - h1.toNat) := by omega
      rw [hsplit, workIter_add]
      rcases Nat.eq_or_lt_of_le (workIter_ge (h2.toNat - h1.toNat)
          (workIter h1.toNat (nextWork start.hrs))) with heq | hlt
      · right
        exact ⟨heq, Nat.le_refl 0⟩
      · left
        exact hlt

theorem add_work_hours_monotone_witness :
    ((2 : Int) < 5) ∧ DT.le (add_work_hours (DT.mk 8 30) 2) (add_work_hours (DT.mk 8 30) 5) :=
  ⟨by decide, add_work_hours_monotone (DT.mk 8 30) 2 5 (by decide)⟩

/-- The counting loop of calculate_risk_integral from src/utils/helpers.py:
one recursion step per counted working hour. The Python loop walks hour by
hour, adding `prob(month) * urgencyFactor` exactly at working hours until
`durationHours` of them are counted; non-working hours contribute nothing, so
the walk from one counted hour to the next is the nextWork jump. -/
def riskLoop : Nat → DT → ℚ → ℚ
  | 0, _, _ => 0
  | n + 1, cur, uf =>
      (get_risk_factor (DT.mk (nextWork cur.hrs) cur.sub)).1 * uf +
        riskLoop n (DT.mk (nextWork cur.hrs + 1) cur.sub) uf

/-- calculate_risk_integral from src/utils/helpers.py. -/
def calculate_risk_integral (start : DT) (durationHours : Int) (urgency : ℚ) : ℚ :=
  riskLoop durationHours.toNat start (urgency / 10) * 100

theorem hk_prob_nonneg (m : Nat) : 0 ≤ (Config.HK_WEATHER_RISK m).1 := by
  by_cases h : m ≤ 12
  · interval_cases m <;> norm_num [Config.HK_WEATHER_RISK]
  · have h13 : Config.HK_WEATHER_RISK m = (0, 0) := by
      unfold Config.HK_WEATHER_RISK
      rw [if_neg (by omega : ¬ m = 1), if_neg (by omega : ¬ m = 2),
        if_neg (by omega : ¬ m = 3), if_neg (by omega : ¬ m = 4),
        if_neg (by omega : ¬ m = 5), if_neg (by omega : ¬ m = 6),
        if_neg (by omega : ¬ m = 7), if_neg (by omega : ¬ m = 8),
        if_neg (by omega : ¬ m = 9), if_neg (by omega : ¬ m = 10),
        if_neg (by omega : ¬ m = 11), if_neg (by omega : ¬ m = 12)]
    rw [h13]

theorem riskLoop_nonneg (n : Nat) (cur : DT) (uf : ℚ) (huf : 0 ≤ uf) :
    0 ≤ riskLoop n cur uf := by
  induction n generalizing cur with
  | zero => simp [riskLoop]
  | succ k ih =>
      have h1 : 0 ≤ (get_risk_factor (DT.mk (nextWork cur.hrs) cur.sub)).1 * uf :=
        mul_nonneg (hk_prob_nonneg _) huf
      have h2 := ih (DT.mk (nextWork cur.hrs + 1) cur.sub)
      simpa [riskLoop] using add_nonneg h1 h2

theorem riskLoop_mono_fuel (n k : Nat) (cur : DT) (uf : ℚ) (huf : 0 ≤ uf) :
    riskLoop n cur uf ≤ riskLoop (n + k) cur uf := by
  induction n generalizing cur with
  | zero =>
      simpa [riskLoop] using riskLoop_nonneg k cur uf huf
  | succ m ih =>
      have h : m + 1 + k = (m + k) + 1 := by omega
      rw [h]
      simp only [riskLoop]
      exact add_le_add_left (ih (DT.mk (nextWork cur.hrs + 1) cur.sub)) _

theorem riskLoop_mono_urg (n : Nat) (cur : DT) (u1 u2 : ℚ) (h1 : 0 ≤ u1) (h12 : u1 ≤ u2) :
    riskLoop n cur u1 ≤ riskLoop n cur u2 := by
  induction n generalizing cur with
  | zero => simp [riskLoop]
  | succ m ih =>
      simp only [riskLoop]
      exact add_le_add
        (mul_le_mul_of_nonneg_left h12 (hk_prob_nonneg _))
        (ih (DT.mk (nextWork cur.hrs + 1) cur.sub))

/-- C6: the risk integral is monotone non-decreasing in the duration (fixed
urgency in 0..10) and in the urgency (fixed duration), for the configured
weather table, whose probabilities are nonnegative (hk_prob_nonneg). -/
theorem calculate_risk_integral_monotone (start : DT) (u u1 u2 : ℚ) (d d1 d2 : Int)
    (hu0 : 0 ≤ u) (hu10 : u ≤ 10) (hd : d1 ≤ d2)
    (h10 : 0 ≤ u1) (h12 : u1 ≤ u2) (h210 : u2 ≤ 10) :
    calculate_risk_integral start d1 u ≤ calculate_risk_integral start d2 u ∧
    calculate_risk_integral start d u1 ≤ calculate_risk_integral start d u2 := by
  constructor
  · unfold calculate_risk_integral
    have huf : 0 ≤ u / 10 := by positivity
    have hsplit : d2.toNat = d1.toNat + (d2.toNat - d1.toNat) := by omega
    have hmono := riskLoop_mono_fuel d1.toNat (d2.toNat - d1.toNat) start (u / 10) huf
    rw [← hsplit] at hmono
    exact mul_le_mul_of_nonneg_right hmono (by norm_num)
  · unfold calculate_risk_integral
    have hdiv : u1 / 10 ≤ u2 / 10 := by
      apply div_le_div_of_nonneg_right h12
      norm_num
    have h0 : 0 ≤ u1 / 10 := by positivity
    exact mul_le_mul_of_nonneg_right (riskLoop_mono_urg d.toNat start _ _ h0 hdiv) (by norm_num)

theorem calculate_risk_integral_monotone_witness :
    (0 : ℚ) ≤ 5 ∧ (5 : ℚ) ≤ 10 ∧ (1 : Int) ≤ 2 ∧ (0 : ℚ) ≤ 3 ∧ (3 : ℚ) ≤ 7 ∧ (7 : ℚ) ≤ 10 ∧
    (calculate_risk_integral (DT.mk 8 0) 1 5 ≤ calculate_risk_integral (DT.mk 8 0) 2 5 ∧
     calculate_risk_integral (DT.mk 8 0) 2 3 ≤ calculate_risk_integral (DT.mk 8 0) 2 7) :=
  ⟨by norm_num, by norm_num, by norm_num, by norm_num, by norm_num, by norm_num,
    calculate_risk_integral_monotone (DT.mk 8 0) 5 3 7 2 1 2
      (by norm_num) (by norm_num) (by norm_num) (by norm_num) (by norm_num) (by norm_num)⟩

namespace ProjectModel

/-- Task record for preempt_and_split in src/core/model.py (the dict fields
the function reads and writes, plus pass-through attributes). -/
structure Task where
  ID : Int
  System : String
  Urgency : Int
  Duration_Hours : Int
  predecessors : List Int
  start_dt : DT
  end_dt : DT
  status : String
deriving DecidableEq, Repr

/-- The completed-hours loop of preempt_and_split: while `current_dt <
roll_dt` and `completed_hours < Duration_Hours`, count working hours and step
one hour. The fuel `roll.hrs + 1 - cur.hrs` used at the call site bounds the
iteration count, since each step increments the hour index and the loop stops
as soon as `cur` passes `roll`. -/
def completedHoursLoop : Nat → DT → DT → Int → Int → Int
  | 0, _, _, completed, _ => completed
  | fuel + 1, cur, roll, completed, dur =>
      if DT.lt cur roll ∧ completed < dur then
        completedHoursLoop fuel (DT.mk (cur.hrs + 1) cur.sub) roll
          (if is_working_hour cur then completed + 1 else completed) dur
      else completed

/-- The completed hours computed by preempt_and_split for one running task. -/
def completedHoursCount (start roll : DT) (dur : Int) : Int :=
  completedHoursLoop (roll.hrs + 1 - start.hrs) start roll 0 dur

/-- Count of working hours stepped hour-by-hour from `cur` toward `roll`
(the same walk without the duration cap), used to state the spec's description
of the Split-Done duration. -/
def workHoursLoop : Nat → DT → DT → Int
  | 0, _, _ => 0
  | fuel + 1, cur, roll =>
      if DT.lt cur roll then
        (if is_working_hour cur then 1 else 0) +
          workHoursLoop fuel (DT.mk (cur.hrs + 1) cur.sub) roll
      else 0

/-- Count of working hours between `start` and `roll` by hour-stepping. -/
def workHoursFrom (start roll : DT) : Int :=
  workHoursLoop (roll.hrs + 1 - start.hrs) start roll

theorem workHoursLoop_nonneg (fuel : Nat) (cur roll : DT) :
    0 ≤ workHoursLoop fuel cur roll := by
  induction fuel generalizing cur with
  | zero => simp [workHoursLoop]
  | succ n ih =>
      simp only [workHoursLoop]
      split
      · have := ih (DT.mk (cur.hrs + 1) cur.sub)
        split <;> omega
      · omega

theorem completedHoursLoop_eq_min (fuel : Nat) (cur roll : DT) (c d : Int)
    (hc : c ≤ d) (hfuel : roll.hrs + 1 - cur.hrs ≤ fuel) :
    completedHoursLoop fuel cur roll c d = min d (c + workHoursLoop fuel cur roll) := by
  induction fuel generalizing cur c with
  | zero =>
      have hhrs : roll.hrs < cur.hrs := by omega
      have hnlt : ¬ DT.lt cur roll := by
        intro hlt
        rcases hlt with h | ⟨h, _⟩ <;> omega
      simp only [completedHoursLoop, workHoursLoop]
      omega
  | succ n ih =>
      by_cases hlt : DT.lt cur roll
      · have hcur : cur.hrs ≤ roll.hrs := by
          rcases hlt with h | ⟨h, _⟩ <;> omega
        have hfuel2 : roll.hrs + 1 - (DT.mk (cur.hrs + 1) cur.sub).hrs ≤ n := by
          simp only []
          omega
        by_cases hcd : c < d
        · have hcond : DT.lt cur roll ∧ c < d := ⟨hlt, hcd⟩
          simp only [completedHoursLoop, workHoursLoop, if_pos hcond, if_pos hlt]
          by_cases hw : is_working_hour cur
          · rw [if_pos hw, if_pos hw, ih _ _ (by omega) hfuel2]
            omega
          · rw [if_neg hw, if_neg hw, ih _ _ hc hfuel2]
            omega
        · have hceq : c = d := by omega
          have hcond : ¬ (DT.lt cur roll ∧ c < d) := by
            intro hcon
            exact hcd hcon.2
          have hwb := workHoursLoop_nonneg n (DT.mk (cur.hrs + 1) cur.sub) roll
          simp only [completedHoursLoop, workHoursLoop, if_neg hcond, if_pos hlt]
          split <;> omega
      · have hcond : ¬ (DT.lt cur roll ∧ c < d) := by
          intro hcon
          exact hlt hcon.1
        simp only [completedHoursLoop, workHoursLoop, if_neg hcond, if_neg hlt]
        omega

theorem completedHoursCount_eq_min (start roll : DT) (d : Int) (hd : 0 ≤ d) :
    completedHoursCount start roll d = min d (workHoursFrom start roll) := by
  have h := completedHoursLoop_eq_min (roll.hrs + 1 - start.hrs) start roll 0 d hd
    (Nat.le_refl _)
  simpa [completedHoursCount, workHoursFrom] using h

theorem completedHoursCount_le (start roll : DT) (d : Int) (hd : 0 ≤ d) :
    completedHoursCount start roll d ≤ d := by
  rw [completedHoursCount_eq_min start roll d hd]
  exact min_le_left _ _

theorem completedHoursCount_nonneg (start roll : DT) (d : Int) (hd : 0 ≤ d) :
    0 ≤ completedHoursCount start roll d := by
  rw [completedHoursCount_eq_min start roll d hd]
  have := workHoursLoop_nonneg (roll.hrs + 1 - start.hrs) start roll
  simp only [workHoursFrom]
  omega

/-- preempt_and_split from src/core/model.py: tasks already over by the
rollover pass through unchanged; a task straddling the rollover is replaced by
a Split-Done copy (fresh ID, completed hours, end at rollover) and a
Split-Remaining copy (next fresh ID, remaining hours, start at rollover,
predecessor = the Split-Done ID); the ID counter advances by 2 per split. -/
def preempt_and_split : List Task → DT → Int → List Task × Int
  | [], _, nextFree => ([], nextFree)
  | task :: rest, roll, nextFree =>
      if DT.le task.end_dt roll then
        let r := preempt_and_split rest roll nextFree
        (task :: r.1, r.2)
      else
        let completed := completedHoursCount task.start_dt roll task.Duration_Hours
        let doneTask : Task :=
          { task with ID := nextFree, Duration_Hours := completed,
                      end_dt := roll, status := "Split-Done" }
        let remTask : Task :=
          { task with ID := nextFree + 1, Duration_Hours := task.Duration_Hours - completed,
                      start_dt := roll, predecessors := [nextFree],
                      status := "Split-Remaining" }
        let r := preempt_and_split rest roll (nextFree + 2)
        (doneTask :: remTask :: r.1, r.2)

/-- Described from the spec (§4.5) amended by the cap the code applies: the
Split-Done duration is the working-hour count from StartTime toward rollTime,
capped at the original DurationHours (the counting loop also stops when the
completed hours reach the duration). -/
def preemptSplitDescribed : List Task → DT → Int → List Task × Int
  | [], _, nextFree => ([], nextFree)
  | task :: rest, roll, nextFree =>
      if DT.le task.end_dt roll then
        let r := preemptSplitDescribed rest roll nextFree
        (task :: r.1, r.2)
      else
        let completed := min task.Duration_Hours (workHoursFrom task.start_dt roll)
        let doneTask : Task :=
          { task with ID := nextFree, Duration_Hours := completed,
                      end_dt := roll, status := "Split-Done" }
        let remTask : Task :=
          { task with ID := nextFree + 1, Duration_Hours := task.Duration_Hours - completed,
                      start_dt := roll, predecessors := [nextFree],
                      status := "Split-Remaining" }
        let r := preemptSplitDescribed rest roll (nextFree + 2)
        (doneTask :: remTask :: r.1, r.2)

/-- C1 counterexample: a running task started Monday 08:00 with DurationHours
= 1 and EndTime past a Monday 12:00 rollover is split with Split-Done
duration 1 (the loop stops at the duration cap), not the count 4 of working
hours stepped from StartTime to rollTime as the claim states. -/
theorem preempt_and_split_counterexample :
    ((preempt_and_split
        [Task.mk 1 ("S") 5 1 [] (DT.mk 8 0) (DT.mk 14 0) ("Running")]
        (DT.mk 12 0) 10).1.map Task.Duration_Hours = [1, 0]) ∧
    workHoursFrom (DT.mk 8 0) (DT.mk 12 0) = 4 ∧ (1 : Int) ≠ 4 := by
  refine ⟨by decide, by decide, by decide⟩

/-- C1 amended: preempt_and_split behaves exactly as described in the spec
once the Split-Done duration is read as the working-hour count from StartTime
toward rollTime capped at the original DurationHours; the returned counter is
the input counter advanced by exactly 2 per split (straddling) task. -/
theorem preempt_and_split_amended (l : List Task) (roll : DT) (nextFree : Int)
    (hdur : ∀ t ∈ l, 0 ≤ t.Duration_Hours) :
    preempt_and_split l roll nextFree = preemptSplitDescribed l roll nextFree ∧
    (preempt_and_split l roll nextFree).2 =
      nextFree + 2 * ((l.filter (fun t => ! decide (DT.le t.end_dt roll))).length : Int) := by
  induction l generalizing nextFree with
  | nil => simp [preempt_and_split, preemptSplitDescribed]
  | cons task rest ih =>
      have hdtask : 0 ≤ task.Duration_Hours := hdur task (by simp)
      have hdrest : ∀ t ∈ rest, 0 ≤ t.Duration_Hours := fun t ht => hdur t (by simp [ht])
      by_cases hle : DT.le task.end_dt roll
      · constructor
        · have h1 := (ih nextFree hdrest).1
          simp only [preempt_and_split, preemptSplitDescribed, if_pos hle, h1]
        · have h2 := (ih nextFree hdrest).2
          have hf : List.filter (fun t => ! decide (DT.le t.end_dt roll)) (task :: rest) =
              List.filter (fun t => ! decide (DT.le t.end_dt roll)) rest := by
            simp [List.filter_cons, hle]
          simp only [preempt_and_split, if_pos hle, hf]
          exact h2
      · constructor
        · have h1 := (ih (nextFree + 2) hdrest).1
          have hmin := completedHoursCount_eq_min task.start_dt roll task.Duration_Hours hdtask
          simp only [preempt_and_split, preemptSplitDescribed, if_neg hle, hmin, h1]
        · have h2 := (ih (nextFree + 2) hdrest).2
          have hf : List.filter (fun t => ! decide (DT.le t.end_dt roll)) (task :: rest) =
              task :: List.filter (fun t => ! decide (DT.le t.end_dt roll)) rest := by
            simp [List.filter_cons, hle]
          simp only [preempt_and_split, if_neg hle, hf, List.length_cons]
          rw [h2]
          push_cast
          ring

theorem preempt_and_split_amended_witness :
    (∀ t ∈ [Task.mk 1 ("S") 5 1 [] (DT.mk 8 0) (DT.mk 14 0) ("Running")],
      0 ≤ t.Duration_Hours) ∧
    preempt_and_split [Task.mk 1 ("S") 5 1 [] (DT.mk 8 0) (DT.mk 14 0) ("Running")]
        (DT.mk 12 0) 10 =
      preemptSplitDescribed [Task.mk 1 ("S") 5 1 [] (DT.mk 8 0) (DT.mk 14 0) ("Running")]
        (DT.mk 12 0) 10 :=
  ⟨by decide,
    (preempt_and_split_amended
      [Task.mk 1 ("S") 5 1 [] (DT.mk 8 0) (DT.mk 14 0) ("Running")]
      (DT.mk 12 0) 10 (by decide)).1⟩

/-- C2: with every input duration at least 1, every Split-Remaining record in
the output of preempt_and_split has a nonnegative duration: the counting loop
stops once the completed hours reach the original duration, so the remainder
bottoms out at 0. -/
theorem split_remaining_duration_nonneg (l : List Task) (roll : DT) (nextFree : Int)
    (hdur : ∀ t ∈ l, 1 ≤ t.Duration_Hours) :
    ∀ u ∈ (preempt_and_split l roll nextFree).1,
      u.status = "Split-Remaining" → 0 ≤ u.Duration_Hours := by
  induction l generalizing nextFree with
  | nil => simp [preempt_and_split]
  | cons task rest ih =>
      have hdtask : 1 ≤ task.Duration_Hours := hdur task (by simp)
      have hdrest : ∀ t ∈ rest, 1 ≤ t.Duration_Hours := fun t ht => hdur t (by simp [ht])
      intro u hu hst
      by_cases hle : DT.le task.end_dt roll
      · simp only [preempt_and_split, if_pos hle, List.mem_cons] at hu
        rcases hu with rfl | hu
        · omega
        · exact ih nextFree hdrest u hu hst
      · simp only [preempt_and_split, if_neg hle, List.mem_cons] at hu
        rcases hu with rfl | rfl | hu
        · simp at hst
        · have hc := completedHoursCount_le task.start_dt roll task.Duration_Hours (by omega)
          simp only []
          omega
        · exact ih (nextFree + 2) hdrest u hu hst

theorem split_remaining_duration_nonneg_witness :
    (∀ t ∈ [Task.mk 1 ("S") 5 1 [] (DT.mk 8 0) (DT.mk 14 0) ("Running")],
      1 ≤ t.Duration_Hours) ∧
    (∀ u ∈ (preempt_and_split [Task.mk 1 ("S") 5 1 [] (DT.mk 8 0) (DT.mk 14 0) ("Running")]
        (DT.mk 12 0) 10).1,
      u.status = "Split-Remaining" → 0 ≤ u.Duration_Hours) :=
  ⟨by decide,
    split_remaining_duration_nonneg
      [Task.mk 1 ("S") 5 1 [] (DT.mk 8 0) (DT.mk 14 0) ("Running")]
      (DT.mk 12 0) 10 (by decide)⟩

/-- Every record in the output of preempt_and_split is either a pass-through
member of the input with EndTime at or before the rollover, or a derived
segment carrying an ID at or above the input counter. -/
theorem preempt_and_split_mem_shape (l : List Task) (roll : DT) (nextFree : Int) :
    ∀ u ∈ (preempt_and_split l roll nextFree).1,
      (u ∈ l ∧ DT.le u.end_dt roll) ∨ nextFree ≤ u.ID := by
  induction l generalizing nextFree with
  | nil => simp [preempt_and_split]
  | cons task rest ih =>
      intro u hu
      by_cases hle : DT.le task.end_dt roll
      · simp only [preempt_and_split, if_pos hle, List.mem_cons] at hu
        rcases hu with rfl | hu
        · exact Or.inl ⟨by simp, hle⟩
        · rcases ih nextFree u hu with ⟨hm, he⟩ | hid
          · exact Or.inl ⟨by simp [hm], he⟩
          · exact Or.inr hid
      · simp only [preempt_and_split, if_neg hle, List.mem_cons] at hu
        rcases hu with rfl | rfl | hu
        · exact Or.inr (by simp)
        · exact Or.inr (by simp)
        · rcases ih (nextFree + 2) u hu with ⟨hm, he⟩ | hid
          · exact Or.inl ⟨by simp [hm], he⟩
          · exact Or.inr (by omega)

/-- C8 counterexample: a single running task (ID 1) straddling the rollover
yields an output holding only the two derived segments (IDs 10 and 11); the
original record is not retained in the returned collection. -/
theorem preempt_no_delete_counterexample :
    ((preempt_and_split [Task.mk 1 ("S") 5 1 [] (DT.mk 8 0) (DT.mk 14 0) ("Running")]
        (DT.mk 12 0) 10).1.map Task.ID = [10, 11]) ∧
    Task.mk 1 ("S") 5 1 [] (DT.mk 8 0) (DT.mk 14 0) ("Running") ∉
      (preempt_and_split [Task.mk 1 ("S") 5 1 [] (DT.mk 8 0) (DT.mk 14 0) ("Running")]
        (DT.mk 12 0) 10).1 := by
  refine ⟨by decide, by decide⟩

/-- C8 amended: preempt_and_split does not keep the original record of a
split task in its returned collection. Provided all input IDs lie below the
ID counter, each straddling input task is absent from the output, which
instead contains its Split-Done and Split-Remaining value copies (built from
the unmutated original). -/
def splitDoneOf (t : Task) (roll : DT) (c : Int) : Task :=
  { t with ID := c, Duration_Hours := completedHoursCount t.start_dt roll t.Duration_Hours,
           end_dt := roll, status := "Split-Done" }

def splitRemOf (t : Task) (roll : DT) (c : Int) : Task :=
  { t with ID := c + 1,
           Duration_Hours := t.Duration_Hours - completedHoursCount t.start_dt roll t.Duration_Hours,
           start_dt := roll, predecessors := [c], status := "Split-Remaining" }

theorem preempt_segments_present (roll : DT) (t : Task) (hsp : ¬ DT.le t.end_dt roll) :
    ∀ (l : List Task) (nextFree : Int), t ∈ l →
      ∃ c, nextFree ≤ c ∧
        splitDoneOf t roll c ∈ (preempt_and_split l roll nextFree).1 ∧
        splitRemOf t roll c ∈ (preempt_and_split l roll nextFree).1 := by
  intro l
  induction l with
  | nil =>
      intro nextFree h
      cases h
  | cons task rest ih =>
      intro nextFree ht
      by_cases hle : DT.le task.end_dt roll
      · rcases List.mem_cons.mp ht with rfl | htr
        · exact absurd hle hsp
        · obtain ⟨c, hc, hdone, hrem⟩ := ih nextFree htr
          refine ⟨c, hc, ?_, ?_⟩ <;>
            simp only [preempt_and_split, if_pos hle, List.mem_cons] <;> tauto
      · rcases List.mem_cons.mp ht with rfl | htr
        · refine ⟨nextFree, le_refl _, ?_, ?_⟩
          · simp [preempt_and_split, if_neg hle, splitDoneOf]
          · simp [preempt_and_split, if_neg hle, splitRemOf]
        · obtain ⟨c, hc, hdone, hrem⟩ := ih (nextFree + 2) htr
          refine ⟨c, by omega, ?_, ?_⟩ <;>
            simp only [preempt_and_split, if_neg hle, List.mem_cons] <;> tauto

theorem preempt_and_split_no_original (l : List Task) (roll : DT) (nextFree : Int)
    (hid : ∀ t ∈ l, t.ID < nextFree) (t : Task) (ht : t ∈ l)
    (hsp : ¬ DT.le t.end_dt roll) :
    t ∉ (preempt_and_split l roll nextFree).1 ∧
    ∃ c, nextFree ≤ c ∧
      splitDoneOf t roll c ∈ (preempt_and_split l roll nextFree).1 ∧
      splitRemOf t roll c ∈ (preempt_and_split l roll nextFree).1 := by
  constructor
  · intro hmem
    rcases preempt_and_split_mem_shape l roll nextFree t hmem with ⟨_, he⟩ | hge
    · exact hsp he
    · have := hid t ht
      omega
  · exact preempt_segments_present roll t hsp l nextFree ht

theorem preempt_and_split_no_original_witness :
    (∀ t ∈ [Task.mk 1 ("S") 5 1 [] (DT.mk 8 0) (DT.mk 14 0) ("Running")], t.ID < 10) ∧
    Task.mk 1 ("S") 5 1 [] (DT.mk 8 0) (DT.mk 14 0) ("Running") ∉
      (preempt_and_split [Task.mk 1 ("S") 5 1 [] (DT.mk 8 0) (DT.mk 14 0) ("Running")]
        (DT.mk 12 0) 10).1 :=
  ⟨by decide,
    (preempt_and_split_no_original
      [Task.mk 1 ("S") 5 1 [] (DT.mk 8 0) (DT.mk 14 0) ("Running")]
      (DT.mk 12 0) 10 (by decide)
      (Task.mk 1 ("S") 5 1 [] (DT.mk 8 0) (DT.mk 14 0) ("Running"))
      (by decide) (by decide)).1⟩

end ProjectModel

/-- Task view for check_cycles in src/utils/helpers.py: the function reads
only the ID and the Predecessors list. -/
structure CTask where
  ID : Int
  Predecessors : List Int
deriving DecidableEq, Repr

/-- The adjacency dict built by check_cycles,
`{task['ID']: task['Predecessors'].copy() for task in tasks_list}`, read
through `task_graph.get(node, [])`: a duplicated ID keeps the last
occurrence, an absent key yields the empty list. -/
def graphPreds (tasks : List CTask) (node : Int) : List Int :=
  match tasks.reverse.find? (fun t => t.ID == node) with
  | some t => t.Predecessors
  | none => []

/-- The adjacency after the hypothetical edge
`task_graph[target_id].append(new_pred)`. -/
def augGraph (tasks : List CTask) (newPred target : Int) (node : Int) : List Int :=
  if node == target then graphPreds tasks node ++ [newPred] else graphPreds tasks node

/-- After the neighbor loop: on a clean (cycle-free) completion the node is
removed from the stack (`stack.remove(node)`); a found cycle propagates the
state as is (the Python early return skips the removal). -/
def dfsPop (node : Int) (res : Bool × List Int × List Int) : Bool × List Int × List Int :=
  if res.1 then res else (false, res.2.1, res.2.2.erase node)

/-- The recursive dfs_visit of check_cycles with the shared mutable `visited`
and `stack` sets threaded as explicit state; the neighbor loop's early
`return True` is the flag of the fold accumulator (once the flag is set the
remaining iterations change nothing, like the early return). The fuel bounds
the recursion depth: every nested call is on a node freshly added to
`visited`, so one more than the number of distinct visitable nodes suffices,
which the correctness lemmas track through the `unvisitedBound` hypothesis. -/
def dfsVisit : Nat → (Int → List Int) → Int → List Int → List Int → Bool × List Int × List Int
  | 0, _, _, visited, stack => (false, visited, stack)
  | fuel + 1, g, node, visited, stack =>
      if node ∈ stack then (true, visited, stack)
      else if node ∈ visited then (false, visited, stack)
      else
        dfsPop node ((g node).foldl
          (fun acc nb => if acc.1 then acc else dfsVisit fuel g nb acc.2.1 acc.2.2)
          (false, node :: visited, node :: stack))

/-- One iteration of the neighbor loop of dfs_visit. -/
def dfsStep (fuel : Nat) (g : Int → List Int) (acc : Bool × List Int × List Int)
    (nb : Int) : Bool × List Int × List Int :=
  if acc.1 then acc else dfsVisit fuel g nb acc.2.1 acc.2.2

/-- All predecessors listed anywhere in the task collection. -/
def allPreds : List CTask → List Int
  | [] => []
  | t :: ts => t.Predecessors ++ allPreds ts

theorem mem_allPreds (tasks : List CTask) (t : CTask) (w : Int)
    (ht : t ∈ tasks) (hw : w ∈ t.Predecessors) : w ∈ allPreds tasks := by
  induction tasks with
  | nil => cases ht
  | cons a ts ih =>
      rcases List.mem_cons.mp ht with rfl | hmem
      · exact List.mem_append_left _ hw
      · exact List.mem_append_right _ (ih hmem)

/-- Every node the traversal can ever touch: the target, the candidate
predecessor, all task IDs and all listed predecessors. -/
def cycleUniverse (tasks : List CTask) (newPred target : Int) : List Int :=
  target :: newPred :: (tasks.map CTask.ID ++ allPreds tasks)

/-- check_cycles from src/utils/helpers.py: unknown target yields false,
otherwise a depth-first search from the target over the augmented adjacency,
with fuel ample for its depth (one more than the universe size). -/
def check_cycles (tasks : List CTask) (newPred target : Int) : Bool :=
  if target ∈ tasks.map CTask.ID then
    (dfsVisit ((cycleUniverse tasks newPred target).length + 1)
      (augGraph tasks newPred target) target [] []).1
  else false

/-- Edge relation of an adjacency function: `b` is a listed neighbor of `a`. -/
def gEdge (g : Int → List Int) (a b : Int) : Prop := b ∈ g a

/-- Reachability along edges. -/
def gReach (g : Int → List Int) : Int → Int → Prop := Relation.ReflTransGen (gEdge g)

/-- Some directed cycle is reachable from `a`. -/
def hasCycleFrom (g : Int → List Int) (a : Int) : Prop :=
  ∃ v, gReach g a v ∧ Relation.TransGen (gEdge g) v v

/-- Finished nodes (visited and not on the stack) have all their successors
finished. -/
def finishedClosed (g : Int → List Int) (V S : List Int) : Prop :=
  ∀ u ∈ V, u ∉ S → ∀ w ∈ g u, w ∈ V ∧ w ∉ S

/-- The three-color invariant: finished nodes are closed under edges and no
cycle is reachable from a finished node. -/
def dfsInv (g : Int → List Int) (V S : List Int) : Prop :=
  finishedClosed g V S ∧ ∀ u ∈ V, u ∉ S → ¬ hasCycleFrom g u

theorem finishedClosed_reach (g : Int → List Int) (V S : List Int)
    (hcl : finishedClosed g V S) (u v : Int) (hu : u ∈ V) (hus : u ∉ S)
    (h : gReach g u v) : v ∈ V ∧ v ∉ S := by
  induction h with
  | refl => exact ⟨hu, hus⟩
  | tail hab hbc ih => exact hcl _ ih.1 ih.2 _ hbc

/-- Number of universe nodes not yet visited. -/
def unvisitedBound (U V : List Int) : Nat := (U.toFinset \ V.toFinset).card

theorem unvisitedBound_anti (U V W : List Int) (h : ∀ x ∈ V, x ∈ W) :
    unvisitedBound U W ≤ unvisitedBound U V := by
  apply Finset.card_le_card
  apply Finset.sdiff_subset_sdiff (Finset.Subset.refl _)
  intro x hx
  simp only [List.mem_toFinset] at hx ⊢
  exact h x hx

theorem unvisitedBound_insert_lt (U V : List Int) (n : Int) (hU : n ∈ U) (hV : n ∉ V) :
    unvisitedBound U (n :: V) < unvisitedBound U V := by
  unfold unvisitedBound
  have hins : (n :: V).toFinset = insert n V.toFinset := by simp
  rw [hins, Finset.sdiff_insert]
  apply Finset.card_erase_lt_of_mem
  simp [hU, hV]

theorem dfsInv_push (g : Int → List Int) (V S : List Int) (n : Int)
    (hinv : dfsInv g V S) (hn : n ∉ V) : dfsInv g (n :: V) (n :: S) := by
  obtain ⟨hcl, hnc⟩ := hinv
  constructor
  · intro u hu hus w hw
    have huV : u ∈ V := by
      rcases List.mem_cons.mp hu with rfl | h
      · exact absurd (List.mem_cons_self _ _) hus
      · exact h
    have husS : u ∉ S := fun h => hus (List.mem_cons_of_mem _ h)
    obtain ⟨hwV, hwS⟩ := hcl u huV husS w hw
    refine ⟨List.mem_cons_of_mem _ hwV, ?_⟩
    intro hmem
    rcases List.mem_cons.mp hmem with rfl | h
    · exact hn hwV
    · exact hwS h
  · intro u hu hus
    have huV : u ∈ V := by
      rcases List.mem_cons.mp hu with rfl | h
      · exact absurd (List.mem_cons_self _ _) hus
      · exact h
    exact hnc u huV (fun h => hus (List.mem_cons_of_mem _ h))

theorem dfsVisit_fresh (fuel : Nat) (g : Int → List Int) (n : Int) (V S : List Int)
    (hS : n ∉ S) (hV : n ∉ V) :
    dfsVisit (fuel + 1) g n V S =
      dfsPop n ((g n).foldl (dfsStep fuel g) (false, n :: V, n :: S)) := by
  simp only [dfsVisit, if_neg hS, if_neg hV]
  rfl

theorem dfsFold_true (fuel : Nat) (g : Int → List Int) (l : List Int)
    (acc : Bool × List Int × List Int) (h : acc.1 = true) :
    l.foldl (dfsStep fuel g) acc = acc := by
  induction l with
  | nil => rfl
  | cons a l ih =>
      rw [List.foldl_cons, dfsStep, if_pos h]
      exact ih

/-- Partial correctness of dfs_visit, by induction on the fuel: with ample
fuel, a True result witnesses a cycle reachable from the search root, and a
False result restores the stack, grows only the visited set (within the
universe `U`), marks the node finished, and preserves the three-color
invariant. -/
theorem dfsVisit_spec (U : List Int) (g : Int → List Int)
    (hg : ∀ m, ∀ w ∈ g m, w ∈ U) (target : Int) :
    ∀ fuel : Nat, ∀ n : Int, ∀ V S : List Int, n ∈ U →
      unvisitedBound U V < fuel →
      dfsInv g V S →
      (∀ s ∈ S, Relation.TransGen (gEdge g) s n) →
      gReach g target n →
      (((dfsVisit fuel g n V S).1 = true → hasCycleFrom g target) ∧
       ((dfsVisit fuel g n V S).1 = false →
         (dfsVisit fuel g n V S).2.2 = S ∧
         (∀ x ∈ V, x ∈ (dfsVisit fuel g n V S).2.1) ∧
         (∀ x ∈ (dfsVisit fuel g n V S).2.1, x ∈ V ∨ x ∈ U) ∧
         n ∈ (dfsVisit fuel g n V S).2.1 ∧ n ∉ S ∧
         dfsInv g (dfsVisit fuel g n V S).2.1 S)) := by
  intro fuel
  induction fuel with
  | zero =>
      intro n V S hnU hb hinv hstack htarg
      omega
  | succ fuel ih =>
      intro n V S hnU hb hinv hstack htarg
      by_cases hS : n ∈ S
      · have hres : dfsVisit (fuel + 1) g n V S = (true, V, S) := by
          simp [dfsVisit, hS]
        rw [hres]
        constructor
        · intro _
          exact ⟨n, htarg, hstack n hS⟩
        · intro h
          exact absurd h (by simp)
      · by_cases hV : n ∈ V
        · have hres : dfsVisit (fuel + 1) g n V S = (false, V, S) := by
            simp [dfsVisit, hS, hV]
          rw [hres]
          constructor
          · intro h
            exact absurd h (by simp)
          · intro _
            exact ⟨rfl, fun x hx => hx, fun x hx => Or.inl hx, hV, hS, hinv⟩
        · -- fresh node: walk the neighbor list, then pop the stack
          have trav : ∀ l : List Int, (∀ nb ∈ l, nb ∈ g n) →
              ∀ V1 : List Int,
                dfsInv g V1 (n :: S) →
                (∀ x ∈ V1, x ∈ V ∨ x ∈ U) →
                unvisitedBound U V1 < fuel →
                (((l.foldl (dfsStep fuel g) (false, V1, n :: S)).1 = true →
                    hasCycleFrom g target) ∧
                 ((l.foldl (dfsStep fuel g) (false, V1, n :: S)).1 = false →
                   (l.foldl (dfsStep fuel g) (false, V1, n :: S)).2.2 = n :: S ∧
                   (∀ x ∈ V1, x ∈ (l.foldl (dfsStep fuel g) (false, V1, n :: S)).2.1) ∧
                   (∀ x ∈ (l.foldl (dfsStep fuel g) (false, V1, n :: S)).2.1,
                     x ∈ V ∨ x ∈ U) ∧
                   dfsInv g (l.foldl (dfsStep fuel g) (false, V1, n :: S)).2.1 (n :: S) ∧
                   (∀ nb ∈ l,
                     nb ∈ (l.foldl (dfsStep fuel g) (false, V1, n :: S)).2.1 ∧
                       nb ∉ n :: S))) := by
            intro l
            induction l with
            | nil =>
                intro _ V1 hinv1 hsub1 hb1
                simp only [List.foldl_nil]
                refine ⟨fun h => absurd h (by simp), fun _ => ?_⟩
                exact ⟨by simp, fun x hx => hx, hsub1, hinv1, by simp⟩
            | cons nb rest ihl =>
                intro hl V1 hinv1 hsub1 hb1
                have hnb : nb ∈ g n := hl nb (by simp)
                have hrest : ∀ x ∈ rest, x ∈ g n := fun x hx => hl x (by simp [hx])
                have hnbU : nb ∈ U := hg n nb hnb
                have hstack2 : ∀ s ∈ n :: S, Relation.TransGen (gEdge g) s nb := by
                  intro s hs
                  rcases List.mem_cons.mp hs with rfl | hsS
                  · exact Relation.TransGen.single hnb
                  · exact (hstack s hsS).tail hnb
                have htarg2 : gReach g target nb := htarg.tail hnb
                have hmain := ih nb V1 (n :: S) hnbU hb1 hinv1 hstack2 htarg2
                have hstep0 : List.foldl (dfsStep fuel g) (false, V1, n :: S) (nb :: rest) =
                    List.foldl (dfsStep fuel g) (dfsVisit fuel g nb V1 (n :: S)) rest := rfl
                rw [hstep0]
                revert hmain
                generalize dfsVisit fuel g nb V1 (n :: S) = r1
                intro hmain
                obtain ⟨rb, rV, rS⟩ := r1
                by_cases hb2 : rb = true
                · subst hb2
                  rw [dfsFold_true fuel g rest (true, rV, rS) rfl]
                  refine ⟨fun _ => hmain.1 rfl, fun hfalse => absurd hfalse (by simp)⟩
                · have hb3 : rb = false := by
                    revert hb2
                    cases rb <;> simp
                  subst hb3
                  obtain ⟨hstk1, hmono1, hsub1b, hnb1, hnbS1, hinv1b⟩ := hmain.2 rfl
                  dsimp only at hstk1 hmono1 hsub1b hnb1 hinv1b
                  subst hstk1
                  have hressub : ∀ x ∈ rV, x ∈ V ∨ x ∈ U := by
                    intro x hx
                    rcases hsub1b x hx with hx1 | hxU
                    · exact hsub1 x hx1
                    · exact Or.inr hxU
                  have hbV2 : unvisitedBound U rV < fuel :=
                    Nat.lt_of_le_of_lt (unvisitedBound_anti U V1 rV hmono1) hb1
                  obtain ⟨ht2, hf2⟩ := ihl hrest rV hinv1b hressub hbV2
                  refine ⟨ht2, fun hres0 => ?_⟩
                  obtain ⟨hstk2, hmono2, hsub2, hinv2, hnbs2⟩ := hf2 hres0
                  refine ⟨hstk2, ?_, hsub2, hinv2, ?_⟩
                  · intro x hx
                    exact hmono2 x (hmono1 x hx)
                  · intro m hm
                    rcases List.mem_cons.mp hm with rfl | hmrest
                    · exact ⟨hmono2 m hnb1, hnbS1⟩
                    · exact hnbs2 m hmrest
          have hpush : dfsInv g (n :: V) (n :: S) := dfsInv_push g V S n hinv hV
          have hsubnV : ∀ x ∈ n :: V, x ∈ V ∨ x ∈ U := by
            intro x hx
            rcases List.mem_cons.mp hx with rfl | h
            · exact Or.inr hnU
            · exact Or.inl h
          have hbn : unvisitedBound U (n :: V) < fuel :=
            Nat.lt_of_lt_of_le (unvisitedBound_insert_lt U V n hnU hV)
              (Nat.lt_succ_iff.mp hb)
          have htravgn := trav (g n) (fun nb h => h) (n :: V) hpush hsubnV hbn
          rw [dfsVisit_fresh fuel g n V S hS hV]
          revert htravgn
          generalize (g n).foldl (dfsStep fuel g) (false, n :: V, n :: S) = r
          intro htravgn
          obtain ⟨ht, hf⟩ := htravgn
          obtain ⟨rb, rV, rS⟩ := r
          by_cases hbb : rb = true
          · subst hbb
            rw [show dfsPop n (true, rV, rS) = (true, rV, rS) from rfl]
            refine ⟨fun _ => ht rfl, fun h0 => absurd h0 (by simp)⟩
          · have hb3 : rb = false := by
              revert hbb
              cases rb <;> simp
            subst hb3
            obtain ⟨hstk, hmono, hsub, hinvr, hnbs⟩ := hf rfl
            dsimp only at hstk hmono hsub hinvr hnbs
            subst hstk
            rw [show dfsPop n (false, rV, n :: S) = (false, rV, (n :: S).erase n) from rfl,
              List.erase_cons_head]
            refine ⟨fun h => absurd h (by simp), fun _ => ?_⟩
            refine ⟨rfl, ?_, hsub, hmono n (by simp), hS, ?_, ?_⟩
            · intro x hx
              exact hmono x (List.mem_cons_of_mem _ hx)
            · intro u hu huS w hw
              by_cases hun : u = n
              · subst hun
                have h2 := hnbs w hw
                exact ⟨h2.1, fun hmem => h2.2 (List.mem_cons_of_mem _ hmem)⟩
              · have huS2 : u ∉ n :: S := by
                  intro hmem
                  rcases List.mem_cons.mp hmem with rfl | h
                  · exact hun rfl
                  · exact huS h
                have h2 := hinvr.1 u hu huS2 w hw
                exact ⟨h2.1, fun hmem => h2.2 (List.mem_cons_of_mem _ hmem)⟩
            · intro u hu huS
              by_cases hun : u = n
              · subst hun
                rintro ⟨v, hreach, hcyc⟩
                rcases Relation.ReflTransGen.cases_head hreach with heq | ⟨w, hw, hwv⟩
                · subst heq
                  obtain ⟨w, hw, hwn⟩ := Relation.TransGen.head'_iff.mp hcyc
                  have h2 := hnbs w hw
                  have h3 := finishedClosed_reach g rV (u :: S) hinvr.1 w u h2.1 h2.2 hwn
                  exact h3.2 (List.mem_cons_self u S)
                · have h2 := hnbs w hw
                  exact hinvr.2 w h2.1 h2.2 ⟨v, hwv, hcyc⟩
              · have huS2 : u ∉ n :: S := by
                  intro hmem
                  rcases List.mem_cons.mp hmem with rfl | h
                  · exact hun rfl
                  · exact huS h
                exact hinvr.2 u hu huS2

theorem graphPreds_subset (tasks : List CTask) (m w : Int)
    (h : w ∈ graphPreds tasks m) : w ∈ allPreds tasks := by
  unfold graphPreds at h
  cases hfind : tasks.reverse.find? (fun t => t.ID == m) with
  | none =>
      rw [hfind] at h
      cases h
  | some t =>
      rw [hfind] at h
      have ht : t ∈ tasks.reverse := List.mem_of_find?_eq_some hfind
      exact mem_allPreds tasks t w (List.mem_reverse.mp ht) h

theorem augGraph_subset (tasks : List CTask) (newPred target : Int) :
    ∀ m, ∀ w ∈ augGraph tasks newPred target m, w ∈ cycleUniverse tasks newPred target := by
  intro m w hw
  unfold augGraph at hw
  by_cases hm : m = target
  · rw [if_pos (by simp [hm])] at hw
    rcases List.mem_append.mp hw with hgp | hp
    · have := graphPreds_subset tasks m w hgp
      simp [cycleUniverse, this]
    · have hwp : w = newPred := by simpa using hp
      simp [cycleUniverse, hwp]
  · rw [if_neg (by simp [hm])] at hw
    have := graphPreds_subset tasks m w hw
    simp [cycleUniverse, this]

/-- C4: check_cycles is a total function that never raises; it returns false
whenever the target is not the ID of any task, and otherwise it returns true
iff the adjacency augmented with the hypothetical edge has a directed cycle
reachable from the target. -/
theorem check_cycles_correct (tasks : List CTask) (newPred target : Int) :
    (target ∉ tasks.map CTask.ID → check_cycles tasks newPred target = false) ∧
    (target ∈ tasks.map CTask.ID →
      (check_cycles tasks newPred target = true ↔
        hasCycleFrom (augGraph tasks newPred target) target)) := by
  constructor
  · intro h
    simp [check_cycles, h]
  · intro hmem
    have hU := augGraph_subset tasks newPred target
    have htU : target ∈ cycleUniverse tasks newPred target := by simp [cycleUniverse]
    have hb : unvisitedBound (cycleUniverse tasks newPred target) [] <
        (cycleUniverse tasks newPred target).length + 1 := by
      unfold unvisitedBound
      simp only [List.toFinset_nil, Finset.sdiff_empty]
      have := List.toFinset_card_le (cycleUniverse tasks newPred target)
      omega
    have hinv0 : dfsInv (augGraph tasks newPred target) [] [] := by
      constructor
      · intro u hu
        cases hu
      · intro u hu
        cases hu
    have hspec := dfsVisit_spec (cycleUniverse tasks newPred target)
      (augGraph tasks newPred target) hU target
      ((cycleUniverse tasks newPred target).length + 1) target [] [] htU hb hinv0
      (fun s hs => absurd hs (List.not_mem_nil s)) Relation.ReflTransGen.refl
    have hck : check_cycles tasks newPred target =
        (dfsVisit ((cycleUniverse tasks newPred target).length + 1)
          (augGraph tasks newPred target) target [] []).1 := by
      simp [check_cycles, hmem]
    rw [hck]
    constructor
    · exact hspec.1
    · intro hcyc
      by_contra hne
      have hfalse : (dfsVisit ((cycleUniverse tasks newPred target).length + 1)
          (augGraph tasks newPred target) target [] []).1 = false := by
        revert hne
        cases (dfsVisit ((cycleUniverse tasks newPred target).length + 1)
          (augGraph tasks newPred target) target [] []).1 <;> simp
      obtain ⟨_, _, _, htmem, _, hinvf⟩ := hspec.2 hfalse
      exact hinvf.2 target htmem (List.not_mem_nil target) hcyc

theorem check_cycles_correct_witness :
    ((1 : Int) ∈ ([CTask.mk 1 [], CTask.mk 2 [1]].map CTask.ID)) ∧
    check_cycles [CTask.mk 1 [], CTask.mk 2 [1]] 2 1 = true := by
  have h := (check_cycles_correct [CTask.mk 1 [], CTask.mk 2 [1]] 2 1).2 (by decide)
  refine ⟨by decide, h.mpr ?_⟩
  refine ⟨1, Relation.ReflTransGen.refl, ?_⟩
  have e1 : gEdge (augGraph [CTask.mk 1 [], CTask.mk 2 [1]] 2 1) 1 2 := by
    unfold gEdge
    decide
  have e2 : gEdge (augGraph [CTask.mk 1 [], CTask.mk 2 [1]] 2 1) 2 1 := by
    unfold gEdge
    decide
  exact Relation.TransGen.head e1 (Relation.TransGen.single e2)

/-- check_cycles with the caller's task collection threaded through as
state: the adjacency is built from a copy of each task's Predecessors list
(`task['Predecessors'].copy()` in the source), so the hypothetical edge is
appended to the per-call adjacency only and the collection flows through the
call untouched. -/
def check_cycles_state (tasks : List CTask) (newPred target : Int) : Bool × List CTask :=
  (check_cycles tasks newPred target, tasks)

/-- C10: a check_cycles call leaves the task collection exactly as it was —
every task's Predecessors list in particular — while the hypothetical edge
exists only in the internal per-call adjacency, which differs from the stored
one exactly at the target node. -/
theorem check_cycles_frame (tasks : List CTask) (newPred target : Int) :
    (check_cycles_state tasks newPred target).2 = tasks ∧
    ((check_cycles_state tasks newPred target).2.map CTask.Predecessors =
      tasks.map CTask.Predecessors) ∧
    augGraph tasks newPred target target = graphPreds tasks target ++ [newPred] ∧
    (∀ m, m ≠ target → augGraph tasks newPred target m = graphPreds tasks m) := by
  refine ⟨rfl, rfl, ?_, ?_⟩
  · simp [augGraph]
  · intro m hm
    simp [augGraph, hm]

namespace Config

/-- Config.WEIGHTS from src/config/base.py (0.4 / 0.2 / 0.1 / 0.3 as exact
fractions). -/
def WEIGHTS_space : ℚ := 4/10

def WEIGHTS_system : ℚ := 2/10

def WEIGHTS_resource : ℚ := 1/10

def WEIGHTS_risk : ℚ := 3/10

end Config

/-- Column mean used by StandardScaler. -/
def colMeanQ (c : List ℚ) : ℚ := c.sum / c.length

/-- Column variance (population variance, as sklearn uses). -/
def colVarQ (c : List ℚ) : ℚ := (c.map (fun x => (x - colMeanQ c) ^ 2)).sum / c.length

/-- StandardScaler's per-column scale: the standard deviation, with zero
variance replaced by 1 (sklearn handle_zeros_in_scale), so a constant column
scales to 0 rather than NaN. -/
noncomputable def colScale (c : List ℚ) : ℝ :=
  if colVarQ c = 0 then 1 else Real.sqrt ((colVarQ c : ℚ) : ℝ)

/-- One standardized entry: (x - mean) / scale. -/
noncomputable def scaleEntry (c : List ℚ) (x : ℚ) : ℝ :=
  (((x : ℚ) : ℝ) - ((colMeanQ c : ℚ) : ℝ)) / colScale c

/-- Column `j` of a row-major matrix. -/
def featCol (m : List (List ℚ)) (j : Nat) : List ℚ := m.map (fun r => r.getD j 0)

/-- scale_feature_array from src/utils/helpers.py: an empty array maps to an
empty array, otherwise StandardScaler().fit_transform standardizes each
column (samples are rows). -/
noncomputable def scale_feature_array (m : List (List ℚ)) : List (List ℝ) :=
  if m.length = 0 then []
  else m.map (fun row => (List.range row.length).map
    (fun j => scaleEntry (featCol m j) (row.getD j 0)))

/-- Elementwise multiplication of a matrix by a scalar weight. -/
noncomputable def weightMat (w : ℝ) (m : List (List ℝ)) : List (List ℝ) :=
  m.map (fun row => row.map (fun v => w * v))

/-- pd.factorize: integer codes assigned by order of first appearance. -/
def factorizeAux : List String → List String → List Nat
  | [], _ => []
  | x :: rest, seen =>
      if x ∈ seen then (seen.indexOf x) :: factorizeAux rest seen
      else seen.length :: factorizeAux rest (seen ++ [x])

/-- Codes of pd.factorize(values)[0]. -/
def factorize (l : List String) : List Nat := factorizeAux l []

/-- np.hstack of two blocks: rowwise concatenation. -/
noncomputable def hstack2 (a b : List (List ℝ)) : List (List ℝ) :=
  a.zipWith (fun r s => r ++ s) b

/-- np.hstack of a nonempty list of blocks. -/
noncomputable def hstackAll : List (List (List ℝ)) → List (List ℝ)
  | [] => []
  | c :: cs => cs.foldl hstack2 c

namespace ProjectModel

/-- Task row for calculate_weighted_features: the fixed columns X, Y, Z,
Urgency_C, System, plus the values under the frame's extra columns. -/
structure FTask where
  X : ℚ
  Y : ℚ
  Z : ℚ
  Urgency_C : ℚ
  System : String
  res : List ℚ
deriving DecidableEq, Repr

/-- The tasks DataFrame: the extra column names (beyond the fixed ones),
with each row's values under them in the same order. -/
structure Frame where
  resColNames : List String
  rows : List FTask
deriving DecidableEq, Repr

/-- calculate_weighted_features from src/core/model.py: empty frame maps to
an empty matrix; otherwise the scaled spatial block (weight 0.4), the scaled
urgency block (0.3) and the scaled system-code block (0.2) are always
stacked, and the scaled resource block (0.1) is appended only when at least
one column name starts with R_ — in the no-resource case a zero column is
computed as a placeholder but never appended. -/
noncomputable def calculate_weighted_features (f : Frame) : List (List ℝ) :=
  if f.rows.length = 0 then []
  else
    let spatial := weightMat ((Config.WEIGHTS_space : ℚ) : ℝ)
      (scale_feature_array (f.rows.map (fun t => [t.X, t.Y, t.Z])))
    let risk := weightMat ((Config.WEIGHTS_risk : ℚ) : ℝ)
      (scale_feature_array (f.rows.map (fun t => [t.Urgency_C])))
    let resourceCols := f.resColNames.filter (fun c => c.startsWith ("R_"))
    let resource :=
      if resourceCols.length ≠ 0 then
        weightMat ((Config.WEIGHTS_resource : ℚ) : ℝ)
          (scale_feature_array (f.rows.map (fun t =>
            ((f.resColNames.zip t.res).filter
              (fun cv => cv.1.startsWith ("R_"))).map (fun cv => cv.2))))
      else f.rows.map (fun _ => [(0 : ℝ)])
    let system := weightMat ((Config.WEIGHTS_system : ℚ) : ℝ)
      (scale_feature_array ((factorize (f.rows.map FTask.System)).map
        (fun c => [((c : Nat) : ℚ)])))
    hstackAll ([spatial, risk, system] ++
      if resourceCols.length ≠ 0 then [resource] else [])

end ProjectModel

theorem hstack2_row_len (p q : Nat) :
    ∀ (a b : List (List ℝ)), (∀ r ∈ a, r.length = p) → (∀ r ∈ b, r.length = q) →
      ∀ r ∈ hstack2 a b, r.length = p + q := by
  intro a
  induction a with
  | nil =>
      intro b _ _ r hr
      simp [hstack2] at hr
  | cons x xs ih =>
      intro b ha hb r hr
      cases b with
      | nil => simp [hstack2] at hr
      | cons y ys =>
          simp only [hstack2, List.zipWith_cons_cons] at hr
          rcases List.mem_cons.mp hr with rfl | hmem
          · rw [List.length_append, ha x (by simp), hb y (by simp)]
          · exact ih ys (fun r2 h2 => ha r2 (by simp [h2]))
              (fun r2 h2 => hb r2 (by simp [h2])) r hmem

theorem scale_feature_array_row_len (m : List (List ℚ)) (p : Nat)
    (hm : ∀ r ∈ m, r.length = p) : ∀ r ∈ scale_feature_array m, r.length = p := by
  intro r hr
  unfold scale_feature_array at hr
  split at hr
  · cases hr
  · obtain ⟨row, hrow, rfl⟩ := List.mem_map.mp hr
    rw [List.length_map, List.length_range, hm row hrow]

theorem weightMat_row_len (w : ℝ) (m : List (List ℝ)) (p : Nat)
    (hm : ∀ r ∈ m, r.length = p) : ∀ r ∈ weightMat w m, r.length = p := by
  intro r hr
  obtain ⟨row, hrow, rfl⟩ := List.mem_map.mp hr
  rw [List.length_map, hm row hrow]

theorem hstack2_length (a b : List (List ℝ)) :
    (hstack2 a b).length = min a.length b.length := by
  simp [hstack2]

theorem scale_feature_array_length (m : List (List ℚ)) :
    (scale_feature_array m).length = m.length := by
  unfold scale_feature_array
  split
  · simp_all
  · simp

theorem weightMat_length (w : ℝ) (m : List (List ℝ)) :
    (weightMat w m).length = m.length := by
  simp [weightMat]

namespace ProjectModel

/-- Shape of the feature matrix when no column name starts with R_: the
zero placeholder column is computed but never appended, so exactly the three
blocks spatial (3 columns), urgency (1) and system (1) are stacked. -/
theorem cwf_no_resource_shape (f : Frame)
    (hne : f.rows.length ≠ 0)
    (hres : f.resColNames.filter (fun c => c.startsWith ("R_")) = []) :
    (calculate_weighted_features f).length = f.rows.length ∧
    ∀ r ∈ calculate_weighted_features f, r.length = 5 := by
  have hsp : ∀ r ∈ weightMat ((Config.WEIGHTS_space : ℚ) : ℝ)
      (scale_feature_array (f.rows.map (fun t => [t.X, t.Y, t.Z]))), r.length = 3 := by
    apply weightMat_row_len
    apply scale_feature_array_row_len
    intro r2 h2
    obtain ⟨t, _, rfl⟩ := List.mem_map.mp h2
    rfl
  have hrk : ∀ r ∈ weightMat ((Config.WEIGHTS_risk : ℚ) : ℝ)
      (scale_feature_array (f.rows.map (fun t => [t.Urgency_C]))), r.length = 1 := by
    apply weightMat_row_len
    apply scale_feature_array_row_len
    intro r2 h2
    obtain ⟨t, _, rfl⟩ := List.mem_map.mp h2
    rfl
  have hsy : ∀ r ∈ weightMat ((Config.WEIGHTS_system : ℚ) : ℝ)
      (scale_feature_array ((factorize (f.rows.map FTask.System)).map
        (fun c => [((c : Nat) : ℚ)]))), r.length = 1 := by
    apply weightMat_row_len
    apply scale_feature_array_row_len
    intro r2 h2
    obtain ⟨c, _, rfl⟩ := List.mem_map.mp h2
    rfl
  have hunf : calculate_weighted_features f =
      hstack2 (hstack2
        (weightMat ((Config.WEIGHTS_space : ℚ) : ℝ)
          (scale_feature_array (f.rows.map (fun t => [t.X, t.Y, t.Z]))))
        (weightMat ((Config.WEIGHTS_risk : ℚ) : ℝ)
          (scale_feature_array (f.rows.map (fun t => [t.Urgency_C])))))
        (weightMat ((Config.WEIGHTS_system : ℚ) : ℝ)
          (scale_feature_array ((factorize (f.rows.map FTask.System)).map
            (fun c => [((c : Nat) : ℚ)])))) := by
    unfold calculate_weighted_features
    rw [if_neg hne, hres]
    simp [hstackAll]
  constructor
  · rw [hunf, hstack2_length, hstack2_length, weightMat_length, weightMat_length,
      weightMat_length, scale_feature_array_length, scale_feature_array_length,
      scale_feature_array_length, List.length_map, List.length_map]
    have hfl : (factorize (f.rows.map FTask.System)).length = f.rows.length := by
      rw [← List.length_map f.rows FTask.System]
      generalize f.rows.map FTask.System = l
      unfold factorize
      generalize ([] : List String) = seen
      induction l generalizing seen with
      | nil => rfl
      | cons x xs ih =>
          unfold factorizeAux
          split <;> simp [ih]
    rw [List.length_map, hfl]
    omega
  · intro r hr
    rw [hunf] at hr
    have := hstack2_row_len 4 1 _ _ (hstack2_row_len 3 1 _ _ hsp hrk) hsy r hr
    omega

/-- C7 amended: for every nonempty task frame in which no column name
starts with R_, the zero placeholder column is computed but never appended:
the returned matrix has one row per task and exactly 5 columns (the three
blocks spatial, urgency, system), not the four-block 6. -/
theorem calculate_weighted_features_no_placeholder (f : Frame)
    (hne : f.rows.length ≠ 0)
    (hres : f.resColNames.filter (fun c => c.startsWith ("R_")) = []) :
    (calculate_weighted_features f).length = f.rows.length ∧
    ∀ r ∈ calculate_weighted_features f, r.length = 5 :=
  cwf_no_resource_shape f hne hres

/-- C7 counterexample: a two-task frame with no resource columns yields a
5-column matrix (three stacked blocks); the claimed all-zero placeholder
column and fourth block are absent. -/
theorem calculate_weighted_features_counterexample :
    (∀ r ∈ calculate_weighted_features
      (Frame.mk [] [FTask.mk 0 0 0 0 ("A") [], FTask.mk 1 2 3 4 ("B") []]),
      r.length = 5) ∧ (5 : Nat) ≠ 3 + 1 + 1 + 1 := by
  constructor
  · exact (cwf_no_resource_shape
      (Frame.mk [] [FTask.mk 0 0 0 0 ("A") [], FTask.mk 1 2 3 4 ("B") []])
      (by decide) (by decide)).2
  · decide

theorem calculate_weighted_features_no_placeholder_witness :
    ((Frame.mk [] [FTask.mk 0 0 0 0 ("A") [], FTask.mk 1 2 3 4 ("B") []]).rows.length ≠ 0) ∧
    ((Frame.mk [] [FTask.mk 0 0 0 0 ("A") [], FTask.mk 1 2 3 4 ("B") []]).resColNames.filter
      (fun c => c.startsWith ("R_")) = []) ∧
    (calculate_weighted_features
      (Frame.mk [] [FTask.mk 0 0 0 0 ("A") [], FTask.mk 1 2 3 4 ("B") []])).length = 2 :=
  ⟨by decide, by decide,
    (calculate_weighted_features_no_placeholder
      (Frame.mk [] [FTask.mk 0 0 0 0 ("A") [], FTask.mk 1 2 3 4 ("B") []])
      (by decide) (by decide)).1⟩

end ProjectModel

theorem colMeanQ_01 : colMeanQ [0, 1] = 1/2 := by
  norm_num [colMeanQ]

theorem colVarQ_01 : colVarQ [0, 1] = 1/4 := by
  norm_num [colVarQ, colMeanQ_01]

theorem colScale_01 : colScale [0, 1] = 1/2 := by
  rw [colScale, if_neg (by rw [colVarQ_01]; norm_num), colVarQ_01]
  rw [show (((1/4 : ℚ) : ℝ)) = (1/2 : ℝ) ^ 2 by push_cast; norm_num]
  exact Real.sqrt_sq (by norm_num)

theorem scaleEntry_01_0 : scaleEntry [0, 1] 0 = -1 := by
  rw [scaleEntry, colScale_01, colMeanQ_01]
  push_cast
  norm_num

theorem scaleEntry_01_1 : scaleEntry [0, 1] 1 = 1 := by
  rw [scaleEntry, colScale_01, colMeanQ_01]
  push_cast
  norm_num

theorem colScale_00 : colScale [0, 0] = 1 := by
  rw [colScale, if_pos]
  norm_num [colVarQ, colMeanQ]

theorem scaleEntry_00 : scaleEntry [0, 0] 0 = 0 := by
  rw [scaleEntry, colScale_00]
  norm_num [colMeanQ]

namespace ProjectModel

/-- C9: the system-type feature depends on input order. The two frames below
hold exactly the same two tasks (equal up to permutation); the task with
System "A" receives system-block feature value -0.2 when listed first and
+0.2 when listed second, because pd.factorize assigns category codes by
order of first appearance. -/
theorem system_encoding_order_dependent :
    ([FTask.mk 0 0 0 0 ("A") [], FTask.mk 0 0 0 0 ("B") []].Perm
      [FTask.mk 0 0 0 0 ("B") [], FTask.mk 0 0 0 0 ("A") []]) ∧
    (((calculate_weighted_features
        (Frame.mk [] [FTask.mk 0 0 0 0 ("A") [], FTask.mk 0 0 0 0 ("B") []])).getD 0 []).getD 4 0 ≠
      ((calculate_weighted_features
        (Frame.mk [] [FTask.mk 0 0 0 0 ("B") [], FTask.mk 0 0 0 0 ("A") []])).getD 1 []).getD 4 0) := by
  constructor
  · exact List.Perm.swap _ _ _
  · have hfac : factorize [("A" : String), ("B" : String)] = [0, 1] := by decide
    have hfac2 : factorize [("B" : String), ("A" : String)] = [0, 1] := by decide
    have hr3 : List.range 3 = [0, 1, 2] := by decide
    have hr1 : List.range 1 = [0] := by decide
    have hA : (calculate_weighted_features
        (Frame.mk [] [FTask.mk 0 0 0 0 ("A") [], FTask.mk 0 0 0 0 ("B") []])) =
        [[0, 0, 0, 0, ((Config.WEIGHTS_system : ℚ) : ℝ) * (-1)],
         [0, 0, 0, 0, ((Config.WEIGHTS_system : ℚ) : ℝ) * 1]] := by
      rw [calculate_weighted_features]
      simp only [List.length_cons, List.length_nil, List.map_cons, List.map_nil,
        List.filter_nil, hfac]
      rw [if_neg (by decide)]
      simp [hstackAll, hstack2, weightMat, scale_feature_array, featCol, hr3, hr1,
        scaleEntry_00, scaleEntry_01_0, scaleEntry_01_1]
    have hB : (calculate_weighted_features
        (Frame.mk [] [FTask.mk 0 0 0 0 ("B") [], FTask.mk 0 0 0 0 ("A") []])) =
        [[0, 0, 0, 0, ((Config.WEIGHTS_system : ℚ) : ℝ) * (-1)],
         [0, 0, 0, 0, ((Config.WEIGHTS_system : ℚ) : ℝ) * 1]] := by
      rw [calculate_weighted_features]
      simp only [List.length_cons, List.length_nil, List.map_cons, List.map_nil,
        List.filter_nil, hfac2]
      rw [if_neg (by decide)]
      simp [hstackAll, hstack2, weightMat, scale_feature_array, featCol, hr3, hr1,
        scaleEntry_00, scaleEntry_01_0, scaleEntry_01_1]
    rw [hA, hB]
    simp only [List.getD_cons_zero, List.getD_cons_succ]
    have hw : ((Config.WEIGHTS_system : ℚ) : ℝ) = 1/5 := by
      rw [Config.WEIGHTS_system]
      push_cast
      norm_num
    rw [hw]
    norm_num

end ProjectModel
